import Mathlib

/-!
# Verification of `pkg/downloader/downloader.go`

A shallow embedding of the batch download orchestrator:

* the thread heuristic `bestThreads` with its level table `threads`;
* the per-item task body and `download`, as pure functions on error values;
* `Download` together with the `errgroup` it drives, as an executable
  step function over explicit states, one scheduler/environment action at a
  time.

Go `int` and `int64` values are embedded as `Int`; the code only compares
them, so no wrap-around can occur.
-/

namespace Downloader

/-! ## Thread heuristic (downloader.go, lines 90-117) -/

/-- One row of the `threads` table: a thread level and a size threshold. -/
structure Level where
  threads : Int
  size : Int
deriving DecidableEq, Repr

/-- The `threads` table: `{1, 1 << 20}, {2, 5 << 20}, {4, 20 << 20}, {8, 50 << 20}`. -/
def threads : List Level :=
  [⟨1, 1 * 2 ^ 20⟩, ⟨2, 5 * 2 ^ 20⟩, ⟨4, 20 * 2 ^ 20⟩, ⟨8, 50 * 2 ^ 20⟩]

/-- The helper `min(a, b int) int`: `if a < b { return a }; return b`. -/
def min (a b : Int) : Int :=
  if a < b then a else b

/-- The loop of `bestThreads` over a table: the first row with `size < t.size`
returns `min(t.threads, maxThreads)`; falling off the end returns `maxThreads`. -/
def bestThreadsIn (table : List Level) (size maxThreads : Int) : Int :=
  match table with
  | [] => maxThreads
  | t :: rest =>
    if size < t.size then min t.threads maxThreads
    else bestThreadsIn rest size maxThreads

/-- The method `bestThreads(size)`, with `d.opts.Threads` passed as `maxThreads`. -/
def bestThreads (size maxThreads : Int) : Int :=
  bestThreadsIn threads size maxThreads

/-- The table lookup in the words of the specification: the thread level of
the first row whose threshold is strictly greater than `s`, or the level of
the last row when there is no such row. -/
def tableThreadsIn (table : List Level) (last : Int) (s : Int) : Int :=
  match table with
  | [] => last
  | t :: rest => if s < t.size then t.threads else tableThreadsIn rest t.threads s

/-- The specification's `tableThreads` over the table of the source; the
largest entry is 8. -/
def tableThreads (s : Int) : Int :=
  tableThreadsIn threads 8 s

/-- One mebibyte. -/
def MiB : Int := 2 ^ 20

/-! ## Error values (`context`, `github.com/go-faster/errors`)

The two imported packages are not part of the repository; they are embedded
after their documented behaviour: `errors.Wrap` builds an error with one
inner error; `errors.Is` compares the error with the target, asks the error's
own `Is` method when it has one, and descends into what `Unwrap` returns, be
it one error or several; `context.Canceled` and `context.DeadlineExceeded`
are distinct sentinels. -/

/-- Go error values, as far as `errors.Is` tells them apart: the two
sentinels of package `context`; any other leaf error; a leaf error with an
`Is` method, which answers `isCanceled` for the target `context.Canceled` and
`isDeadline` for `context.DeadlineExceeded`; an error wrapped with an
annotation (`Unwrap() error`); and an error holding two errors
(`Unwrap() []error`, as built by `errors.Join`). -/
inductive Err where
  | canceled
  | deadlineExceeded
  | other (code : Nat)
  | custom (code : Nat) (isCanceled isDeadline : Bool)
  | wrap (msg : String) (inner : Err)
  | join (left right : Err)
deriving DecidableEq, Repr

/-- The sentinel `context.Canceled`. -/
def contextCanceled : Err := Err.canceled

/-- The sentinel `context.DeadlineExceeded`. -/
def contextDeadlineExceeded : Err := Err.deadlineExceeded

/-- The call `errors.Wrap(err, msg)` on a non-nil `err`. -/
def errorsWrap (err : Err) (msg : String) : Err :=
  Err.wrap msg err

/-- The call `errors.Is(err, target)`: true when `err` equals the target or
its `Is` method accepts the target; otherwise the answer for the error
`Unwrap` returns, or for any of the errors it returns. -/
def errorsIs (err target : Err) : Bool :=
  if err = target then true
  else
    match err with
    | Err.custom _ isCanceled isDeadline =>
      (isCanceled && decide (target = contextCanceled)) ||
        (isDeadline && decide (target = contextDeadlineExceeded))
    | Err.wrap _ inner => errorsIs inner target
    | Err.join left right => errorsIs left target || errorsIs right target
    | _ => false

/-! ## The task body and `download` (downloader.go, lines 40-88) -/

/-- The return value `rerr` of the closure handed to `wg.Go` (lines 44-53),
given the value `err` returned by `d.download(wgctx, elem)`. -/
def taskReturn (err : Option Err) : Option Err :=
  match err with
  | some e => if errorsIs e contextCanceled then some (errorsWrap e "download") else none
  | none => none

/-- The function `download` (lines 64-88): `ctxErr` is `ctx.Err()` as seen by
the `select` on `ctx.Done()` (nil when the context is not done), `transfer`
is the error returned by the transfer engine's `Parallel`. -/
def download (ctxErr transfer : Option Err) : Option Err :=
  match ctxErr with
  | some e => some e
  | none =>
    match transfer with
    | some e => some (errorsWrap e "download")
    | none => none

/-! ## `Download` and its `errgroup` as a step function (lines 33-62)

`Download` runs one goroutine per item next to its own loop. The run is
embedded as an interleaving of atomic steps: a state holds the program point
of the main goroutine and of every launched goroutine together with the
fields of the `errgroup.Group` (`sem`, `wg`, `err`) and the derived context;
the step function executes one action of one goroutine or of the
environment. The group follows `golang.org/x/sync/errgroup`: `SetLimit(n)`
installs a semaphore of capacity `n`, or none when `n` is negative; `Go`
acquires a token (blocking), adds to the wait group and starts the goroutine;
a goroutine whose function returns a non-nil error stores it in `err` if it is
the first and cancels the context, then releases its token and leaves the
wait group; `Wait` blocks until the wait group is empty, cancels the context
and returns `err`. -/

/-- Modelled from the spec: the interface `Elem` is declared outside
downloader.go. An item exposes a size in bytes (`elem.File().Size()`), the
only accessor whose value the orchestrator computes with; `id` tells items
apart. -/
structure Elem where
  id : Nat
  size : Int
deriving DecidableEq, Repr

/-- The part of `Options` the model reads: `Threads`. The pool, the part
size, the iterator and the progress sink are the environment. -/
structure Options where
  Threads : Int
deriving DecidableEq, Repr

/-- Program points of one goroutine started by `wg.Go`: `spawned` before line
41; `added` after `OnAdd` and the `defer`, before the `select` of `download`;
`transferring` inside `Parallel`; `returned` when `download` has returned to
line 44; `exited` when the closure has returned and its deferred `OnDone` has
run; `recorded` when the group has looked at the closure's result;
`finished` after `g.done()`. -/
inductive TaskPc where
  | spawned
  | added
  | transferring
  | returned
  | exited
  | recorded
  | finished
deriving DecidableEq, Repr

/-- Position of a program point in the goroutine's straight-line code. -/
def TaskPc.rank : TaskPc → Nat
  | spawned => 0
  | added => 1
  | transferring => 2
  | returned => 3
  | exited => 4
  | recorded => 5
  | finished => 6

/-- One goroutine: its item, its program point, the thread count handed to
the transfer engine (line 81), the local `err` of line 44 and the named
result `rerr`; the last three are nil until they are assigned. -/
structure Task where
  elem : Elem
  pc : TaskPc
  threads : Option Int
  err : Option Err
  rerr : Option Err
deriving DecidableEq, Repr

/-- Modelled from the spec: the interface `Progress` is declared outside
downloader.go. The progress sink receives `OnAdd(elem)` when an item starts
and `OnDone(elem, err)` when it finishes; a call is recorded with the launch
index `task` of the goroutine that made it. -/
inductive Event where
  | onAdd (task : Nat) (elem : Elem)
  | onDone (task : Nat) (elem : Elem) (err : Option Err)
deriving DecidableEq, Repr

/-- Program points of the goroutine running `Download`. -/
inductive MainPc where
  | next
  | launch (elem : Elem)
  | checkErr
  | wait
  | done (result : Option Err)
deriving DecidableEq, Repr

/-- The state of one run of `Download`. `sem` is `len(g.sem)`, `wg` the
counter of `g.wg`, `gerr` is `g.err`, `ctxErr` is `wgctx.Err()`, `log` the
calls made on the progress sink so far, `dequeued` the number of times
`Iter.Next` returned true and `iterErr` what `Iter.Err()` returned. -/
structure State where
  main : MainPc
  tasks : List Task
  sem : Nat
  wg : Nat
  gerr : Option Err
  ctxErr : Option Err
  log : List Event
  dequeued : Nat
  iterErr : Option Err
deriving DecidableEq, Repr

/-- The state on entry to `Download(ctx, limit)`, after `errgroup.WithContext`
and `SetLimit`; `ctx` is `ctx.Err()` of the caller's context at that time. -/
def init (ctx : Option Err) : State :=
  { main := MainPc.next, tasks := [], sem := 0, wg := 0, gerr := none,
    ctxErr := ctx, log := [], dequeued := 0, iterErr := none }

/-- One atomic step of the run. The environment chooses when the caller's
context ends and how, and what the iterator (`Iter.Next`, `Iter.Value`,
`Iter.Err`, an interface declared outside downloader.go) and the transfer
engine return; the scheduler chooses which goroutine moves. -/
inductive Action where
  | ctxDone (deadline : Bool)
  | iterNext (elem : Elem)
  | iterEnd
  | go
  | iterErr (err : Option Err)
  | wait
  | onAdd (t : Nat)
  | enter (t : Nat)
  | transfer (t : Nat) (err : Option Err)
  | onDone (t : Nat)
  | record (t : Nat)
  | release (t : Nat)
deriving DecidableEq, Repr

/-- The cancel function of `wgctx`: the first cause to end the context
decides `wgctx.Err()`; the group's own cancel yields `context.Canceled`. -/
def cancel (ctxErr : Option Err) : Option Err :=
  match ctxErr with
  | some e => some e
  | none => some contextCanceled

/-- Move goroutine `t` from program point `pc` by `f`, when it is there. -/
def stepTask (s : State) (t : Nat) (pc : TaskPc) (f : Task → State → State) : Option State :=
  match s.tasks[t]? with
  | some task => if task.pc = pc then some (f task s) else none
  | none => none

/-- Replace goroutine `t`. -/
def setTask (s : State) (t : Nat) (task : Task) : State :=
  { s with tasks := s.tasks.set t task }

/-- The step function; `none` means the action is not enabled (the
goroutine is elsewhere, or blocked on the semaphore or on `g.wg`).

* `ctxDone`: the caller's context ends, by cancellation or by deadline.
* `iterNext`, `iterEnd`: `Iter.Next(wgctx)` returns true (and `Iter.Value()`
  is `elem`) or false (line 37).
* `go`: `wg.Go` (line 40): with a limit (`limit ≥ 0`), send a token on
  `g.sem`, blocking while it holds `limit` tokens; with a negative limit there
  is no semaphore; then `g.wg.Add(1)` and start the goroutine.
* `iterErr`: `Iter.Err()` (line 57) returns `err`; a non-nil one is returned
  wrapped with "iter" (line 58), otherwise `wg.Wait()` is entered.
* `wait`: `g.wg.Wait()` unblocks at counter zero; `Wait` cancels `wgctx` and
  `Download` returns `g.err` (line 61).
* `onAdd`: line 41. `enter`: the `select` of lines 65-69, then the thread
  count of line 81. `transfer`: `Parallel` returns (lines 79-87).
* `onDone`: lines 44-53 set `rerr`, then the deferred call of line 42.
* `record`: the group stores the first non-nil task error and cancels.
* `release`: `g.done()`: receive from `g.sem` (with a limit), `g.wg.Done()`. -/
def step (d : Options) (limit : Int) (s : State) (a : Action) : Option State :=
  match a with
  | Action.ctxDone deadline =>
    match s.ctxErr with
    | some _ => none
    | none =>
      some { s with ctxErr := some (if deadline then contextDeadlineExceeded else contextCanceled) }
  | Action.iterNext elem =>
    match s.main with
    | MainPc.next => some { s with main := MainPc.launch elem, dequeued := s.dequeued + 1 }
    | _ => none
  | Action.iterEnd =>
    match s.main with
    | MainPc.next => some { s with main := MainPc.checkErr }
    | _ => none
  | Action.go =>
    match s.main with
    | MainPc.launch elem =>
      if limit < 0 then
        some { s with main := MainPc.next, wg := s.wg + 1,
                      tasks := s.tasks ++ [⟨elem, TaskPc.spawned, none, none, none⟩] }
      else if (s.sem : Int) < limit then
        some { s with main := MainPc.next, sem := s.sem + 1, wg := s.wg + 1,
                      tasks := s.tasks ++ [⟨elem, TaskPc.spawned, none, none, none⟩] }
      else none
    | _ => none
  | Action.iterErr err =>
    match s.main with
    | MainPc.checkErr =>
      match err with
      | some e =>
        some { s with main := MainPc.done (some (errorsWrap e "iter")), iterErr := some e }
      | none => some { s with main := MainPc.wait }
    | _ => none
  | Action.wait =>
    match s.main with
    | MainPc.wait =>
      if s.wg = 0 then some { s with main := MainPc.done s.gerr, ctxErr := cancel s.ctxErr }
      else none
    | _ => none
  | Action.onAdd t =>
    stepTask s t TaskPc.spawned fun task s =>
      { setTask s t { task with pc := TaskPc.added } with
        log := s.log ++ [Event.onAdd t task.elem] }
  | Action.enter t =>
    stepTask s t TaskPc.added fun task s =>
      match s.ctxErr with
      | some e => setTask s t { task with pc := TaskPc.returned, err := download (some e) none }
      | none =>
        setTask s t { task with pc := TaskPc.transferring,
                                threads := some (bestThreads task.elem.size d.Threads) }
  | Action.transfer t err =>
    stepTask s t TaskPc.transferring fun task s =>
      setTask s t { task with pc := TaskPc.returned, err := download none err }
  | Action.onDone t =>
    stepTask s t TaskPc.returned fun task s =>
      { setTask s t { task with pc := TaskPc.exited, rerr := taskReturn task.err } with
        log := s.log ++ [Event.onDone t task.elem (taskReturn task.err)] }
  | Action.record t =>
    stepTask s t TaskPc.exited fun task s =>
      match task.rerr, s.gerr with
      | some e, none =>
        { setTask s t { task with pc := TaskPc.recorded } with
          gerr := some e, ctxErr := cancel s.ctxErr }
      | _, _ => setTask s t { task with pc := TaskPc.recorded }
  | Action.release t =>
    match s.tasks[t]? with
    | some task =>
      if task.pc = TaskPc.recorded ∧ 0 < s.wg ∧ (limit < 0 ∨ 0 < s.sem) then
        some { setTask s t { task with pc := TaskPc.finished } with
               sem := if limit < 0 then s.sem else s.sem - 1, wg := s.wg - 1 }
      else none
    | none => none

/-- Run a schedule from a state; `none` when some action is not enabled. -/
def exec (d : Options) (limit : Int) (s : State) : List Action → Option State
  | [] => some s
  | a :: rest =>
    match step d limit s a with
    | some s' => exec d limit s' rest
    | none => none

/-- The states a run of `Download(ctx, limit)` can be in. -/
def Reachable (d : Options) (limit : Int) (s : State) : Prop :=
  ∃ ctx sched, exec d limit (init ctx) sched = some s

/-- A goroutine started by `wg.Go` that has not finished. -/
def Task.isActive (task : Task) : Bool :=
  decide (task.pc ≠ TaskPc.finished)

/-- A goroutine that has called `OnAdd`. -/
def Task.wasAdded (task : Task) : Bool :=
  decide (task.pc ≠ TaskPc.spawned)

/-- A goroutine whose closure has returned, its deferred `OnDone` included. -/
def Task.hasExited (task : Task) : Bool :=
  decide (4 ≤ task.pc.rank)

/-- Number of goroutines started by `wg.Go` that have not finished. -/
def active (s : State) : Nat :=
  s.tasks.countP Task.isActive

/-- Number of `OnAdd` calls in a log. -/
def countAdd (log : List Event) : Nat :=
  log.countP fun e => match e with
    | Event.onAdd _ _ => true
    | Event.onDone _ _ _ => false

/-- Number of `OnDone` calls in a log. -/
def countDone (log : List Event) : Nat :=
  log.countP fun e => match e with
    | Event.onAdd _ _ => false
    | Event.onDone _ _ _ => true

/-- The goroutine an event belongs to. -/
def Event.task : Event → Nat
  | Event.onAdd t _ => t
  | Event.onDone t _ _ => t

/-- The calls of a log that concern goroutine `t`, in order. -/
def eventsOf (log : List Event) (t : Nat) : List Event :=
  log.filter fun e => e.task = t

/-- The calls goroutine `t` has made on the progress sink, by program point:
none before `OnAdd`, one `OnAdd` while the closure runs, and `OnAdd` followed
by `OnDone` with the closure's result once it has returned. -/
def expectedEvents (t : Nat) (task : Option Task) : List Event :=
  match task with
  | none => []
  | some task =>
    if task.pc = TaskPc.spawned then []
    else if task.pc.rank < 4 then [Event.onAdd t task.elem]
    else [Event.onAdd t task.elem, Event.onDone t task.elem task.rerr]

/-- Number of items `Download` holds between `Iter.Value()` and `wg.Go`. -/
def MainPc.holding : MainPc → Nat
  | MainPc.launch _ => 1
  | _ => 0

/-- Counting invariant of a run: `g.wg` and, with a limit, `g.sem` count the
unfinished goroutines; the semaphore never holds more than `limit` tokens;
every dequeued item is launched or held; the progress sink has seen one
`OnAdd` per goroutine past line 41 and one `OnDone` per returned closure. -/
structure CountInv (limit : Int) (s : State) : Prop where
  wg_eq : s.wg = active s
  sem_eq : 0 ≤ limit → s.sem = active s
  sem_le : 0 ≤ limit → (s.sem : Int) ≤ limit
  deq : s.dequeued = s.tasks.length + s.main.holding
  nAdd : countAdd s.log = s.tasks.countP Task.wasAdded
  nDone : countDone s.log = s.tasks.countP Task.hasExited

/-- Data invariant of a run: the progress calls of each goroutine are the
expected ones; `err` is nil until `download` has returned; `rerr` is what the
closure computes from `err`; `g.err` is the result of some returned closure,
and is set once a closure with a non-nil result has been recorded. -/
structure DataInv (s : State) : Prop where
  events : ∀ t, eventsOf s.log t = expectedEvents t s.tasks[t]?
  err_nil : ∀ (t : Nat) (task : Task), s.tasks[t]? = some task → task.pc.rank < 3 →
    task.err = none
  rerr_eq : ∀ (t : Nat) (task : Task), s.tasks[t]? = some task → 4 ≤ task.pc.rank →
    task.rerr = taskReturn task.err
  gerr_src : ∀ e, s.gerr = some e →
    ∃ (t : Nat) (task : Task),
      s.tasks[t]? = some task ∧ 4 ≤ task.pc.rank ∧ task.rerr = some e
  gerr_set : ∀ (t : Nat) (task : Task), s.tasks[t]? = some task → 5 ≤ task.pc.rank →
    task.rerr ≠ none → s.gerr ≠ none

/-- Invariant of the goroutine running `Download`: `Iter.Err()` has returned
non-nil only if `Download` returned it wrapped with "iter"; otherwise a
returned `Download` went through `wg.Wait()`, returned `g.err`, and no
goroutine is left. -/
structure MainInv (s : State) : Prop where
  running : (∀ r, s.main ≠ MainPc.done r) → s.iterErr = none
  iter : ∀ r e, s.main = MainPc.done r → s.iterErr = some e →
    r = some (errorsWrap e "iter")
  waited : ∀ r, s.main = MainPc.done r → s.iterErr = none → r = s.gerr ∧ active s = 0

/-- Steps left to the launched goroutines: for each, the distance of its
program point from `finished`. -/
def remaining (s : State) : Nat :=
  (s.tasks.map fun task => 6 - task.pc.rank).sum

/-! ## Concrete runs -/

/-- A small item (500 KB). -/
def item0 : Elem := ⟨0, 500000⟩

/-- A medium item (10 MB). -/
def item1 : Elem := ⟨1, 10000000⟩

/-- A large item (60 MB). -/
def item2 : Elem := ⟨2, 60000000⟩

/-- A run with one item whose transfer fails with a plain I/O fault: the item
is dequeued and launched, `OnAdd` is called, `download` passes its `select`,
`Parallel` returns the fault, and the closure returns through its deferred
`OnDone`. -/
def ioFaultRun : List Action :=
  [Action.iterNext item0, Action.go, Action.onAdd 0, Action.enter 0,
   Action.transfer 0 (some (Err.other 1)), Action.onDone 0]

/-- A run in which the caller's context hits its deadline before the only
item's `download` reaches its `select`; the iterator then ends without error
and `Download` returns from `wg.Wait()`. -/
def deadlineRun : List Action :=
  [Action.iterNext item0, Action.go, Action.onAdd 0, Action.ctxDone true, Action.enter 0,
   Action.onDone 0, Action.record 0, Action.release 0, Action.iterEnd, Action.iterErr none,
   Action.wait]

/-- A run in which the iterator yields one item and then ends with an error
while that item's transfer is still in flight. -/
def iterFaultRun : List Action :=
  [Action.iterNext item0, Action.go, Action.onAdd 0, Action.enter 0, Action.iterEnd,
   Action.iterErr (some (Err.other 7))]

/-- A run with two items in flight at once; the first transfer fails with a
plain fault, the second is canceled by the caller mid-flight. -/
def canceledRun : List Action :=
  [Action.iterNext item0, Action.go, Action.iterNext item1, Action.go,
   Action.onAdd 0, Action.onAdd 1, Action.enter 1, Action.enter 0,
   Action.transfer 0 (some (Err.other 1)), Action.onDone 0, Action.record 0, Action.release 0,
   Action.ctxDone false, Action.transfer 1 (some contextCanceled), Action.onDone 1,
   Action.record 1, Action.release 1, Action.iterEnd, Action.iterErr none, Action.wait]

/-- The state at the end of `canceledRun` with `Threads = 8` and `limit = 2`. -/
def canceledEnd : State :=
  { main := MainPc.done (some (Err.wrap "download" (Err.wrap "download" Err.canceled))),
    tasks :=
      [⟨item0, TaskPc.finished, some 1, some (Err.wrap "download" (Err.other 1)), none⟩,
       ⟨item1, TaskPc.finished, some 4, some (Err.wrap "download" Err.canceled),
        some (Err.wrap "download" (Err.wrap "download" Err.canceled))⟩],
    sem := 0, wg := 0,
    gerr := some (Err.wrap "download" (Err.wrap "download" Err.canceled)),
    ctxErr := some Err.canceled,
    log :=
      [Event.onAdd 0 item0, Event.onAdd 1 item1, Event.onDone 0 item0 none,
       Event.onDone 1 item1 (some (Err.wrap "download" (Err.wrap "download" Err.canceled)))],
    dequeued := 2, iterErr := none }

/-- The state at the end of `deadlineRun` with `Threads = 8` and `limit = 2`. -/
def deadlineEnd : State :=
  { main := MainPc.done none,
    tasks := [⟨item0, TaskPc.finished, none, some Err.deadlineExceeded, none⟩],
    sem := 0, wg := 0, gerr := none, ctxErr := some Err.deadlineExceeded,
    log := [Event.onAdd 0 item0, Event.onDone 0 item0 none],
    dequeued := 1, iterErr := none }

/-- Two launches with no limit (`limit = -1`): both goroutines are started
before either has finished. -/
def unlimitedRun : List Action :=
  [Action.iterNext item0, Action.go, Action.iterNext item1, Action.go]

/-- One item in flight and a second one dequeued: `Download` is about to
call `wg.Go` for the second item. -/
def blockedRun : List Action :=
  [Action.iterNext item0, Action.go, Action.onAdd 0, Action.enter 0, Action.iterNext item1]

/-- The state at the end of `blockedRun` with `Threads = 8`, for `limit = 1`
as well as for `limit = 2`. -/
def blockedEnd : State :=
  { main := MainPc.launch item1,
    tasks := [⟨item0, TaskPc.transferring, some 1, none, none⟩],
    sem := 1, wg := 1, gerr := none, ctxErr := none,
    log := [Event.onAdd 0 item0],
    dequeued := 2, iterErr := none }

/-- Three items of 500 KB, 10 MB and 60 MB run one after the other to the
end of the batch, all transfers succeeding. -/
def successRun : List Action :=
  [Action.iterNext item0, Action.go, Action.onAdd 0, Action.enter 0, Action.transfer 0 none,
   Action.onDone 0, Action.record 0, Action.release 0,
   Action.iterNext item1, Action.go, Action.onAdd 1, Action.enter 1, Action.transfer 1 none,
   Action.onDone 1, Action.record 1, Action.release 1,
   Action.iterNext item2, Action.go, Action.onAdd 2, Action.enter 2,
   Action.transfer 2 none, Action.onDone 2, Action.record 2, Action.release 2,
   Action.iterEnd, Action.iterErr none, Action.wait]

/-- The state at the end of `successRun` with `Threads = 8` and `limit = 2`. -/
def successEnd : State :=
  { main := MainPc.done none,
    tasks :=
      [⟨item0, TaskPc.finished, some 1, none, none⟩,
       ⟨item1, TaskPc.finished, some 4, none, none⟩,
       ⟨item2, TaskPc.finished, some 8, none, none⟩],
    sem := 0, wg := 0, gerr := none, ctxErr := some Err.canceled,
    log :=
      [Event.onAdd 0 item0, Event.onDone 0 item0 none, Event.onAdd 1 item1,
       Event.onDone 1 item1 none, Event.onAdd 2 item2, Event.onDone 2 item2 none],
    dequeued := 3, iterErr := none }

/-! # Theorems -/

/-! ### Basic facts about the heuristic -/

theorem bestThreads_cases (s m : Int) :
    bestThreads s m =
      if s < 1 * MiB then min 1 m
      else if s < 5 * MiB then min 2 m
      else if s < 20 * MiB then min 4 m
      else if s < 50 * MiB then min 8 m
      else m := by
  simp only [bestThreads, threads, bestThreadsIn, MiB]

theorem tableThreads_cases (s : Int) :
    tableThreads s =
      if s < 1 * MiB then 1
      else if s < 5 * MiB then 2
      else if s < 20 * MiB then 4
      else 8 := by
  simp only [tableThreads, threads, tableThreadsIn, MiB]
  split_ifs <;> rfl

theorem min_eq_inf (a b : Int) : min a b = a ⊓ b := by
  unfold min
  split_ifs with h
  · exact (inf_eq_left.mpr (le_of_lt h)).symm
  · exact (inf_eq_right.mpr (not_lt.mp h)).symm

/-! ## Properties of the thread heuristic -/

/-- C1 (as stated, refuted): at size 50 MiB with a configured maximum of 16
the code returns 16, while `min(tableThreads(s), m)` is 8. -/
theorem bestThreads_ne_min_tableThreads :
    bestThreads (50 * MiB) 16 = 16 ∧ Min.min (tableThreads (50 * MiB)) 16 = 8 ∧
    ¬ (∀ s m : Int, bestThreads s m = Min.min (tableThreads s) m) := by
  refine ⟨by decide, by decide, ?_⟩
  intro h
  have h1 := h (50 * MiB) 16
  revert h1
  decide

/-- C1 (amended): `bestThreads(s, m)` equals `min(tableThreads(s), m)` whenever
the size is below the last threshold (50 MiB) or the configured maximum is at
most 8; at or beyond 50 MiB the result is the configured maximum itself. -/
theorem bestThreads_eq_min_tableThreads (s m : Int) :
    (s < 50 * MiB ∨ m ≤ 8 → bestThreads s m = Min.min (tableThreads s) m) ∧
    (50 * MiB ≤ s → bestThreads s m = m) := by
  rw [bestThreads_cases, tableThreads_cases]
  simp only [min, min_def, MiB]
  constructor
  · intro h
    split_ifs <;> omega
  · intro h
    split_ifs <;> omega

/-- Witness for C1 (amended): a size below 50 MiB with a maximum above 8, and
a size of 50 MiB. -/
theorem bestThreads_eq_min_tableThreads_witness :
    ((10 * MiB < 50 * MiB ∨ (16 : Int) ≤ 8) ∧
      bestThreads (10 * MiB) 16 = Min.min (tableThreads (10 * MiB)) 16) ∧
    (50 * MiB ≤ 50 * MiB ∧ bestThreads (50 * MiB) 16 = 16) :=
  ⟨⟨Or.inl (by decide),
      (bestThreads_eq_min_tableThreads (10 * MiB) 16).1 (Or.inl (by decide))⟩,
    ⟨le_refl _, (bestThreads_eq_min_tableThreads (50 * MiB) 16).2 (le_refl _)⟩⟩

/-- C2: the thresholds of the table ascend; `bestThreads` returns `min(1, m)`
below 1 MiB, else `min(2, m)` below 5 MiB, else `min(4, m)` below 20 MiB, else
`min(8, m)` below 50 MiB, and otherwise `m` itself; size 0 gives the smallest
entry; sizes 500KB, 10MB and 60MB (decimal or binary units) with `m = 8` give
1, 4 and 8. -/
theorem bestThreads_scan (s m : Int) :
    List.Pairwise (fun a b => a < b) (threads.map Level.size) ∧
    bestThreads s m =
      (if s < 1 * MiB then Min.min 1 m
       else if s < 5 * MiB then Min.min 2 m
       else if s < 20 * MiB then Min.min 4 m
       else if s < 50 * MiB then Min.min 8 m
       else m) ∧
    bestThreads 0 m = Min.min 1 m ∧
    bestThreads 500000 8 = 1 ∧ bestThreads 10000000 8 = 4 ∧ bestThreads 60000000 8 = 8 ∧
    bestThreads (500 * 2 ^ 10) 8 = 1 ∧ bestThreads (10 * MiB) 8 = 4 ∧
    bestThreads (60 * MiB) 8 = 8 := by
  refine ⟨by decide, ?_, ?_, by decide, by decide, by decide, by decide, by decide, by decide⟩
  · rw [bestThreads_cases]
    simp only [min_eq_inf]
  · rw [bestThreads_cases, if_pos (by decide)]
    exact min_eq_inf 1 m

/-- C8 (as stated, refuted): with a configured maximum of 0 an empty item is
given 0 threads, which is below 1. -/
theorem bestThreads_lt_one :
    bestThreads 0 0 = 0 ∧
    ¬ (∀ s m : Int, 1 ≤ bestThreads s m ∧ bestThreads s m ≤ m) := by
  refine ⟨by decide, ?_⟩
  intro h
  have h1 := (h 0 0).1
  revert h1
  decide

/-- C8 (amended): the thread count is at most the configured maximum for every
size and maximum, and it is at least 1 whenever the configured maximum is at
least 1; for a maximum below 1 the result is the maximum itself. -/
theorem bestThreads_bounds (s m : Int) :
    bestThreads s m ≤ m ∧ (1 ≤ m → 1 ≤ bestThreads s m) ∧
    (m < 1 → bestThreads s m = m) := by
  rw [bestThreads_cases]
  simp only [min]
  refine ⟨?_, ?_, ?_⟩
  · split_ifs <;> omega
  · intro h
    split_ifs <;> omega
  · intro h
    split_ifs <;> omega

/-- Witness for C8 (amended): maximum 8 at size 0, maximum 0 at size 0. -/
theorem bestThreads_bounds_witness :
    ((1 : Int) ≤ 8 ∧ 1 ≤ bestThreads 0 8) ∧ ((0 : Int) < 1 ∧ bestThreads 0 0 = 0) :=
  ⟨⟨by decide, (bestThreads_bounds 0 8).2.1 (by decide)⟩,
   ⟨by decide, (bestThreads_bounds 0 0).2.2 (by decide)⟩⟩

/-- C10: `bestThreads` is monotone non-decreasing in the item size, for every
configured maximum (also above 8 and below 1). -/
theorem bestThreads_mono (m s1 s2 : Int) (h : s1 ≤ s2) :
    bestThreads s1 m ≤ bestThreads s2 m := by
  rw [bestThreads_cases, bestThreads_cases]
  simp only [min, MiB]
  split_ifs <;> omega

/-- Witness for C10: sizes 0 and 50 MiB at maximum 16, where the values are 1
and 16. -/
theorem bestThreads_mono_witness :
    (0 : Int) ≤ 50 * MiB ∧ bestThreads 0 16 ≤ bestThreads (50 * MiB) 16 :=
  ⟨by decide, bestThreads_mono 16 0 (50 * MiB) (by decide)⟩

/-! ## Runs of `Download`: auxiliary facts -/

theorem stepTask_eq_some {s : State} {t : Nat} {pc : TaskPc} {f : Task → State → State}
    {s' : State} :
    stepTask s t pc f = some s' ↔
      ∃ task, s.tasks[t]? = some task ∧ task.pc = pc ∧ f task s = s' := by
  unfold stepTask
  cases h : s.tasks[t]? with
  | none => simp
  | some task =>
    by_cases hp : task.pc = pc <;> simp [hp]

theorem countP_set_add (p : Task → Bool) (y : Task) :
    ∀ (l : List Task) (t : Nat) (x : Task), l[t]? = some x →
      (l.set t y).countP p + (if p x then 1 else 0) = l.countP p + (if p y then 1 else 0)
  | [], t, x, h => by simp at h
  | a :: l, 0, x, h => by
    simp at h
    subst h
    simp [List.countP_cons]
    omega
  | a :: l, t + 1, x, h => by
    simp at h
    have ih := countP_set_add p y l t x h
    simp [List.countP_cons]
    omega

theorem countInv_init (limit : Int) (ctx : Option Err) : CountInv limit (init ctx) := by
  constructor <;> simp [init, active, countAdd, countDone, MainPc.holding]

theorem countInv_setTask {limit : Int} {s : State} (hi : CountInv limit s) {t : Nat}
    {task task' : Task} (ht : s.tasks[t]? = some task)
    (ha : task'.isActive = task.isActive) (hb : task'.wasAdded = task.wasAdded)
    (hc : task'.hasExited = task.hasExited) : CountInv limit (setTask s t task') := by
  have h1 := countP_set_add Task.isActive task' _ _ _ ht
  have h2 := countP_set_add Task.wasAdded task' _ _ _ ht
  have h3 := countP_set_add Task.hasExited task' _ _ _ ht
  rw [ha] at h1
  rw [hb] at h2
  rw [hc] at h3
  have e1 : (s.tasks.set t task').countP Task.isActive = s.tasks.countP Task.isActive := by omega
  have e2 : (s.tasks.set t task').countP Task.wasAdded = s.tasks.countP Task.wasAdded := by omega
  have e3 : (s.tasks.set t task').countP Task.hasExited = s.tasks.countP Task.hasExited := by
    omega
  constructor
  · simpa [setTask, active, e1] using hi.wg_eq
  · simpa [setTask, active, e1] using hi.sem_eq
  · simpa [setTask] using hi.sem_le
  · simpa [setTask] using hi.deq
  · simpa [setTask, e2] using hi.nAdd
  · simpa [setTask, e3] using hi.nDone

theorem countInv_step {d : Options} {limit : Int} {s s' : State} {a : Action}
    (h : step d limit s a = some s') (hi : CountInv limit s) : CountInv limit s' := by
  cases a <;> simp only [step, stepTask_eq_some] at h
  case ctxDone dl =>
    obtain ⟨h1, h2, h3, h4, h5, h6⟩ := hi
    split at h <;> simp at h
    subst h
    exact ⟨h1, h2, h3, h4, h5, h6⟩
  case iterNext e =>
    obtain ⟨h1, h2, h3, h4, h5, h6⟩ := hi
    split at h <;> simp at h
    rename_i hm
    subst h
    refine ⟨h1, h2, h3, ?_, h5, h6⟩
    simp [hm, MainPc.holding] at h4 ⊢
    exact h4
  case iterEnd =>
    obtain ⟨h1, h2, h3, h4, h5, h6⟩ := hi
    split at h <;> simp at h
    rename_i hm
    subst h
    refine ⟨h1, h2, h3, ?_, h5, h6⟩
    simp [hm, MainPc.holding] at h4 ⊢
    exact h4
  case go =>
    obtain ⟨h1, h2, h3, h4, h5, h6⟩ := hi
    split at h <;> try simp at h
    rename_i e hm
    simp only [hm, MainPc.holding] at h4
    simp only [active] at h1 h2
    split_ifs at h with hl hs <;> simp at h <;> subst h
    · refine ⟨?_, ?_, ?_, ?_, ?_, ?_⟩
      · simp [active, List.countP_append, Task.isActive, h1]
      · intro h0; omega
      · intro h0; omega
      · simp [MainPc.holding, h4]
      · simp [List.countP_append, Task.wasAdded, h5]
      · simp [List.countP_append, Task.hasExited, TaskPc.rank, h6]
    · refine ⟨?_, ?_, ?_, ?_, ?_, ?_⟩
      · simp [active, List.countP_append, Task.isActive, h1]
      · intro h0
        simp [active, List.countP_append, Task.isActive, h2 h0]
      · intro h0
        simp only [Nat.cast_add, Nat.cast_one]
        omega
      · simp [MainPc.holding, h4]
      · simp [List.countP_append, Task.wasAdded, h5]
      · simp [List.countP_append, Task.hasExited, TaskPc.rank, h6]
  case iterErr e =>
    obtain ⟨h1, h2, h3, h4, h5, h6⟩ := hi
    split at h <;> try simp at h
    rename_i hm
    simp only [hm, MainPc.holding] at h4
    split at h <;> simp at h <;> subst h <;> exact ⟨h1, h2, h3, h4, h5, h6⟩
  case wait =>
    obtain ⟨h1, h2, h3, h4, h5, h6⟩ := hi
    split at h <;> try simp at h
    rename_i hm
    simp only [hm, MainPc.holding] at h4
    obtain ⟨_, rfl⟩ := h
    exact ⟨h1, h2, h3, h4, h5, h6⟩
  case onAdd t =>
    obtain ⟨task, ht, hpc, rfl⟩ := h
    obtain ⟨h1, h2, h3, h4, h5, h6⟩ := hi
    have e1 := countP_set_add Task.isActive { task with pc := TaskPc.added } _ _ _ ht
    have e2 := countP_set_add Task.wasAdded { task with pc := TaskPc.added } _ _ _ ht
    have e3 := countP_set_add Task.hasExited { task with pc := TaskPc.added } _ _ _ ht
    simp [Task.isActive, hpc] at e1
    simp [Task.wasAdded, hpc] at e2
    simp [Task.hasExited, hpc, TaskPc.rank] at e3
    simp only [active] at h1 h2
    refine ⟨?_, ?_, ?_, ?_, ?_, ?_⟩
    · simp [setTask, active, e1, h1]
    · intro h0
      simp [setTask, active, e1, h2 h0]
    · simpa [setTask] using h3
    · simpa [setTask] using h4
    · simp only [countAdd] at h5
      simp [setTask, countAdd, List.countP_append, e2, h5]
    · simp only [countDone] at h6
      simp [setTask, countDone, List.countP_append, e3, h6]
  case enter t =>
    obtain ⟨task, ht, hpc, rfl⟩ := h
    split
    · exact countInv_setTask hi ht (by simp [Task.isActive, hpc])
        (by simp [Task.wasAdded, hpc]) (by simp [Task.hasExited, hpc, TaskPc.rank])
    · exact countInv_setTask hi ht (by simp [Task.isActive, hpc])
        (by simp [Task.wasAdded, hpc]) (by simp [Task.hasExited, hpc, TaskPc.rank])
  case transfer t e =>
    obtain ⟨task, ht, hpc, rfl⟩ := h
    exact countInv_setTask hi ht (by simp [Task.isActive, hpc])
        (by simp [Task.wasAdded, hpc]) (by simp [Task.hasExited, hpc, TaskPc.rank])
  case onDone t =>
    obtain ⟨task, ht, hpc, rfl⟩ := h
    obtain ⟨h1, h2, h3, h4, h5, h6⟩ := hi
    have e1 := countP_set_add Task.isActive
      { task with pc := TaskPc.exited, rerr := taskReturn task.err } _ _ _ ht
    have e2 := countP_set_add Task.wasAdded
      { task with pc := TaskPc.exited, rerr := taskReturn task.err } _ _ _ ht
    have e3 := countP_set_add Task.hasExited
      { task with pc := TaskPc.exited, rerr := taskReturn task.err } _ _ _ ht
    simp [Task.isActive, hpc] at e1
    simp [Task.wasAdded, hpc] at e2
    simp [Task.hasExited, hpc, TaskPc.rank] at e3
    simp only [active] at h1 h2
    refine ⟨?_, ?_, ?_, ?_, ?_, ?_⟩
    · simp [setTask, active, e1, h1]
    · intro h0
      simp [setTask, active, e1, h2 h0]
    · simpa [setTask] using h3
    · simpa [setTask] using h4
    · simp only [countAdd] at h5
      simp [setTask, countAdd, List.countP_append, e2, h5]
    · simp only [countDone] at h6
      simp [setTask, countDone, List.countP_append, e3, h6]
  case record t =>
    obtain ⟨task, ht, hpc, rfl⟩ := h
    have key : CountInv limit (setTask s t { task with pc := TaskPc.recorded }) :=
      countInv_setTask hi ht (by simp [Task.isActive, hpc])
        (by simp [Task.wasAdded, hpc]) (by simp [Task.hasExited, hpc, TaskPc.rank])
    split
    · obtain ⟨h1, h2, h3, h4, h5, h6⟩ := key
      exact ⟨h1, h2, h3, h4, h5, h6⟩
    · exact key
  case release t =>
    split at h <;> try simp at h
    rename_i task ht
    obtain ⟨⟨hpc, hwg, hsem⟩, rfl⟩ := h
    obtain ⟨h1, h2, h3, h4, h5, h6⟩ := hi
    have e1 := countP_set_add Task.isActive { task with pc := TaskPc.finished } _ _ _ ht
    have e2 := countP_set_add Task.wasAdded { task with pc := TaskPc.finished } _ _ _ ht
    have e3 := countP_set_add Task.hasExited { task with pc := TaskPc.finished } _ _ _ ht
    simp [Task.isActive, hpc] at e1
    simp [Task.wasAdded, hpc] at e2
    simp [Task.hasExited, hpc, TaskPc.rank] at e3
    simp only [active] at h1 h2
    refine ⟨?_, ?_, ?_, ?_, ?_, ?_⟩
    · simp [setTask, active]
      omega
    · intro h0
      have := h2 h0
      have hl : ¬ limit < 0 := not_lt.mpr h0
      simp [setTask, active, hl]
      omega
    · intro h0
      have := h3 h0
      have hl : ¬ limit < 0 := not_lt.mpr h0
      simp only [setTask, hl, if_false]
      omega
    · simpa [setTask] using h4
    · simpa [setTask, e2] using h5
    · simpa [setTask, e3] using h6

theorem eventsOf_append (log evs : List Event) (t : Nat) :
    eventsOf (log ++ evs) t = eventsOf log t ++ eventsOf evs t := by
  simp [eventsOf, List.filter_append]

theorem getElem?_set_task {l : List Task} {t : Nat} {task : Task} (ht : l[t]? = some task)
    (task' : Task) (t' : Nat) :
    (l.set t task')[t']? = if t = t' then some task' else l[t']? := by
  have hlt : t < l.length := by
    obtain ⟨h, _⟩ := List.getElem?_eq_some.mp ht
    exact h
  rw [List.getElem?_set]
  simp [hlt]

theorem dataInv_init (ctx : Option Err) : DataInv (init ctx) := by
  constructor <;> simp [init, eventsOf, expectedEvents]

/-- A step of the main goroutine or of the environment that leaves the
goroutines, the log and `g.err` alone keeps the data invariant. -/
theorem dataInv_congr {s s' : State} (hi : DataInv s) (h1 : s'.tasks = s.tasks)
    (h2 : s'.log = s.log) (h3 : s'.gerr = s.gerr) : DataInv s' := by
  obtain ⟨a, b, c, e, f⟩ := hi
  constructor
  · rw [h1, h2]; exact a
  · rw [h1]; exact b
  · rw [h1]; exact c
  · rw [h1, h3]; exact e
  · rw [h1, h3]; exact f

/-- A step of goroutine `t` keeps the data invariant when its new progress
calls, its fields and `g.err` fit its new program point. -/
theorem dataInv_update {s s' : State} (hi : DataInv s) {t : Nat} {task : Task}
    (task' : Task) (evs : List Event) (ht : s.tasks[t]? = some task)
    (h1 : s'.tasks = s.tasks.set t task') (h2 : s'.log = s.log ++ evs)
    (hev : ∀ e ∈ evs, e.task = t)
    (hex : expectedEvents t (some task) ++ evs = expectedEvents t (some task'))
    (herr : task'.pc.rank < 3 → task'.err = none)
    (hrerr : 4 ≤ task'.pc.rank → task'.rerr = taskReturn task'.err)
    (hkeep : 4 ≤ task.pc.rank → 4 ≤ task'.pc.rank ∧ task'.rerr = task.rerr)
    (hsrc : ∀ e, s'.gerr = some e →
      s.gerr = some e ∨ (4 ≤ task'.pc.rank ∧ task'.rerr = some e))
    (hset : s.gerr ≠ none → s'.gerr ≠ none)
    (hset' : 5 ≤ task'.pc.rank → task'.rerr ≠ none → s'.gerr ≠ none) : DataInv s' := by
  obtain ⟨a, b, c, e, f⟩ := hi
  constructor
  · intro t'
    rw [h1, h2, eventsOf_append, getElem?_set_task ht, a t']
    by_cases htt : t = t'
    · subst htt
      have : eventsOf evs t = evs := by
        unfold eventsOf
        rw [List.filter_eq_self]
        intro x hx
        simp [hev x hx]
      rw [this, ht, if_pos rfl, hex]
    · have : eventsOf evs t' = [] := by
        unfold eventsOf
        rw [List.filter_eq_nil_iff]
        intro x hx
        simp [hev x hx, htt]
      rw [this, if_neg htt, List.append_nil]
  · intro t' x hx hr
    rw [h1, getElem?_set_task ht] at hx
    split_ifs at hx with htt
    · cases hx
      exact herr hr
    · exact b t' x hx hr
  · intro t' x hx hr
    rw [h1, getElem?_set_task ht] at hx
    split_ifs at hx with htt
    · cases hx
      exact hrerr hr
    · exact c t' x hx hr
  · intro err hg
    rcases hsrc err hg with hg' | ⟨hr, hre⟩
    · obtain ⟨t', x, hx, hr, hre⟩ := e err hg'
      by_cases htt : t = t'
      · subst htt
        rw [ht] at hx
        cases hx
        refine ⟨t, task', ?_, (hkeep hr).1, ?_⟩
        · rw [h1, getElem?_set_task ht, if_pos rfl]
        · rw [(hkeep hr).2, hre]
      · refine ⟨t', x, ?_, hr, hre⟩
        rw [h1, getElem?_set_task ht, if_neg htt, hx]
    · refine ⟨t, task', ?_, hr, hre⟩
      rw [h1, getElem?_set_task ht, if_pos rfl]
  · intro t' x hx hr hne
    rw [h1, getElem?_set_task ht] at hx
    split_ifs at hx with htt
    · cases hx
      exact hset' hr hne
    · exact hset (f t' x hx hr hne)

theorem dataInv_step {d : Options} {limit : Int} {s s' : State} {a : Action}
    (h : step d limit s a = some s') (hi : DataInv s) : DataInv s' := by
  cases a <;> simp only [step, stepTask_eq_some] at h
  case ctxDone dl =>
    split at h <;> simp at h
    subst h
    exact dataInv_congr hi rfl rfl rfl
  case iterNext e =>
    split at h <;> simp at h
    subst h
    exact dataInv_congr hi rfl rfl rfl
  case iterEnd =>
    split at h <;> simp at h
    subst h
    exact dataInv_congr hi rfl rfl rfl
  case go =>
    split at h <;> try simp at h
    rename_i e hm
    have key : ∀ s'' : State,
        s''.tasks = s.tasks ++ [⟨e, TaskPc.spawned, none, none, none⟩] →
        s''.log = s.log → s''.gerr = s.gerr → DataInv s'' := by
      intro s'' h1 h2 h3
      obtain ⟨a, b, c, f, g⟩ := hi
      have hget : ∀ (t : Nat) (x : Task), s''.tasks[t]? = some x →
          s.tasks[t]? = some x ∨ x = ⟨e, TaskPc.spawned, none, none, none⟩ := by
        intro t x hx
        rw [h1, List.getElem?_append] at hx
        split_ifs at hx with hlt
        · exact Or.inl hx
        · right
          cases hn : t - s.tasks.length with
          | zero => rw [hn] at hx; simpa using hx.symm
          | succ n => rw [hn] at hx; simp at hx
      constructor
      · intro t
        rw [h1, h2, a t, List.getElem?_append]
        split_ifs with hlt
        · rfl
        · rw [List.getElem?_eq_none (not_lt.mp hlt)]
          cases hn : t - s.tasks.length with
          | zero => simp [expectedEvents]
          | succ n => simp [expectedEvents]
      · intro t x hx hr
        rcases hget t x hx with hx' | rfl
        · exact b t x hx' hr
        · rfl
      · intro t x hx hr
        rcases hget t x hx with hx' | rfl
        · exact c t x hx' hr
        · simp [TaskPc.rank] at hr
      · intro err hg
        rw [h3] at hg
        obtain ⟨t, x, hx, hr, hre⟩ := f err hg
        refine ⟨t, x, ?_, hr, hre⟩
        rw [h1, List.getElem?_append_left, hx]
        exact (List.getElem?_eq_some.mp hx).1
      · intro t x hx hr hne
        rw [h3]
        rcases hget t x hx with hx' | rfl
        · exact g t x hx' hr hne
        · simp [TaskPc.rank] at hr
    split_ifs at h with hl hs <;> simp at h <;> subst h <;> exact key _ rfl rfl rfl
  case iterErr e =>
    split at h <;> try simp at h
    split at h <;> simp at h <;> subst h <;> exact dataInv_congr hi rfl rfl rfl
  case wait =>
    split at h <;> try simp at h
    obtain ⟨_, rfl⟩ := h
    exact dataInv_congr hi rfl rfl rfl
  case onAdd t =>
    obtain ⟨task, ht, hpc, rfl⟩ := h
    refine dataInv_update hi
      { task with pc := TaskPc.added }
      [Event.onAdd t task.elem]
      ht rfl rfl ?_ ?_ ?_ ?_ ?_ ?_ ?_ ?_
    · simp [Event.task]
    · simp [expectedEvents, hpc, TaskPc.rank]
    · intro _
      exact hi.err_nil t task ht (by simp [hpc, TaskPc.rank])
    · simp [TaskPc.rank]
    · simp [hpc, TaskPc.rank]
    · intro e he
      exact Or.inl he
    · exact id
    · simp [TaskPc.rank]
  case enter t =>
    obtain ⟨task, ht, hpc, rfl⟩ := h
    split
    · rename_i e he
      refine dataInv_update hi
        { task with pc := TaskPc.returned, err := download (some e) none }
        []
        ht rfl (by simp [setTask]) ?_ ?_ ?_ ?_ ?_ ?_ ?_ ?_
      · simp
      · simp [expectedEvents, hpc, TaskPc.rank]
      · simp [TaskPc.rank]
      · simp [TaskPc.rank]
      · simp [hpc, TaskPc.rank]
      · intro e he
        exact Or.inl he
      · exact id
      · simp [TaskPc.rank]
    · refine dataInv_update hi
        { task with pc := TaskPc.transferring,
                    threads := some (bestThreads task.elem.size d.Threads) }
        [] ht rfl (by simp [setTask]) ?_ ?_ ?_ ?_ ?_ ?_ ?_ ?_
      · simp
      · simp [expectedEvents, hpc, TaskPc.rank]
      · intro _
        exact hi.err_nil t task ht (by simp [hpc, TaskPc.rank])
      · simp [TaskPc.rank]
      · simp [hpc, TaskPc.rank]
      · intro e he
        exact Or.inl he
      · exact id
      · simp [TaskPc.rank]
  case transfer t e =>
    obtain ⟨task, ht, hpc, rfl⟩ := h
    refine dataInv_update hi
      { task with pc := TaskPc.returned, err := download none e }
      []
      ht rfl (by simp [setTask]) ?_ ?_ ?_ ?_ ?_ ?_ ?_ ?_
    · simp
    · simp [expectedEvents, hpc, TaskPc.rank]
    · simp [TaskPc.rank]
    · simp [TaskPc.rank]
    · simp [hpc, TaskPc.rank]
    · intro e he
      exact Or.inl he
    · exact id
    · simp [TaskPc.rank]
  case onDone t =>
    obtain ⟨task, ht, hpc, rfl⟩ := h
    refine dataInv_update hi
      { task with pc := TaskPc.exited, rerr := taskReturn task.err }
      [Event.onDone t task.elem (taskReturn task.err)]
      ht rfl rfl ?_ ?_ ?_ ?_ ?_ ?_ ?_ ?_
    · simp [Event.task]
    · simp [expectedEvents, hpc, TaskPc.rank]
    · simp [TaskPc.rank]
    · simp
    · simp [hpc, TaskPc.rank]
    · intro e he
      exact Or.inl he
    · exact id
    · simp [TaskPc.rank]
  case record t =>
    obtain ⟨task, ht, hpc, rfl⟩ := h
    have hre := hi.rerr_eq t task ht (by simp [hpc, TaskPc.rank])
    split
    · rename_i e hr hg
      refine dataInv_update hi
        { task with pc := TaskPc.recorded }
        []
        ht rfl (by simp [setTask]) ?_ ?_ ?_ ?_ ?_ ?_ ?_ ?_
      · simp
      · simp [expectedEvents, hpc, TaskPc.rank]
      · simp [TaskPc.rank]
      · intro _
        exact hre
      · simp [TaskPc.rank]
      · intro e' he'
        right
        simp at he'
        simp [TaskPc.rank, hr, he']
      · simp
      · simp
    · rename_i hno
      refine dataInv_update hi
        { task with pc := TaskPc.recorded }
        []
        ht rfl (by simp [setTask]) ?_ ?_ ?_ ?_ ?_ ?_ ?_ ?_
      · simp
      · simp [expectedEvents, hpc, TaskPc.rank]
      · simp [TaskPc.rank]
      · intro _
        exact hre
      · simp [TaskPc.rank]
      · intro e he
        exact Or.inl he
      · exact id
      · intro _ hne hg
        cases hr : task.rerr with
        | none => exact hne hr
        | some e => exact hno e hr (by simpa [setTask] using hg)
  case release t =>
    split at h <;> try simp at h
    rename_i task ht
    obtain ⟨⟨hpc, hwg, hsem⟩, rfl⟩ := h
    refine dataInv_update hi
      { task with pc := TaskPc.finished }
      []
      ht rfl (by simp [setTask]) ?_ ?_ ?_ ?_ ?_ ?_ ?_ ?_
    · simp
    · simp [expectedEvents, hpc, TaskPc.rank]
    · simp [TaskPc.rank]
    · intro _
      exact hi.rerr_eq t task ht (by simp [hpc, TaskPc.rank])
    · simp [TaskPc.rank]
    · intro e he
      exact Or.inl he
    · exact id
    · intro _ hne
      exact hi.gerr_set t task ht (by simp [hpc, TaskPc.rank]) hne

theorem finished_of_active_eq_zero {s : State} (h : active s = 0) {t : Nat} {task : Task}
    (ht : s.tasks[t]? = some task) : task.pc = TaskPc.finished := by
  unfold active at h
  rw [List.countP_eq_zero] at h
  have hm : task ∈ s.tasks := List.mem_iff_getElem?.mpr ⟨t, ht⟩
  have := h task hm
  simpa [Task.isActive] using this

theorem mainInv_init (ctx : Option Err) : MainInv (init ctx) := by
  constructor <;> simp [init]

/-- A step of a goroutine that has not finished keeps the invariant of the
main goroutine. -/
theorem mainInv_task {s s' : State} (hi : MainInv s) {t : Nat} {task : Task}
    (ht : s.tasks[t]? = some task) (hpc : task.pc ≠ TaskPc.finished)
    (h1 : s'.main = s.main) (h2 : s'.iterErr = s.iterErr) : MainInv s' := by
  obtain ⟨a, b, c⟩ := hi
  constructor
  · rw [h1, h2]; exact a
  · rw [h1, h2]; exact b
  · rw [h1, h2]
    intro r hr he
    exact absurd (finished_of_active_eq_zero (c r hr he).2 ht) hpc

theorem mainInv_step {d : Options} {limit : Int} {s s' : State} {a : Action}
    (h : step d limit s a = some s') (hc : CountInv limit s) (hi : MainInv s) :
    MainInv s' := by
  cases a <;> simp only [step, stepTask_eq_some] at h
  case ctxDone dl =>
    split at h <;> simp at h
    subst h
    exact ⟨hi.running, hi.iter, hi.waited⟩
  case iterNext e =>
    split at h <;> simp at h
    rename_i hm
    subst h
    have := hi.running (by simp [hm])
    constructor <;> simp [this]
  case iterEnd =>
    split at h <;> simp at h
    rename_i hm
    subst h
    have := hi.running (by simp [hm])
    constructor <;> simp [this]
  case go =>
    split at h <;> try simp at h
    rename_i e hm
    have := hi.running (by simp [hm])
    split_ifs at h with hl hs <;> simp at h <;> subst h <;> constructor <;> simp [this]
  case iterErr e =>
    split at h <;> try simp at h
    rename_i hm
    have := hi.running (by simp [hm])
    split at h <;> simp at h <;> subst h <;> constructor <;> simp [this]
  case wait =>
    split at h <;> try simp at h
    rename_i hm
    have := hi.running (by simp [hm])
    obtain ⟨hw, rfl⟩ := h
    have ha : active s = 0 := by rw [← hc.wg_eq]; exact hw
    constructor <;> simp [this, active] at ha ⊢
    exact ha
  case onAdd t =>
    obtain ⟨task, ht, hpc, rfl⟩ := h
    exact mainInv_task hi ht (by simp [hpc]) rfl rfl
  case enter t =>
    obtain ⟨task, ht, hpc, rfl⟩ := h
    refine mainInv_task hi ht (by simp [hpc]) ?_ ?_ <;> split <;> rfl
  case transfer t e =>
    obtain ⟨task, ht, hpc, rfl⟩ := h
    exact mainInv_task hi ht (by simp [hpc]) rfl rfl
  case onDone t =>
    obtain ⟨task, ht, hpc, rfl⟩ := h
    exact mainInv_task hi ht (by simp [hpc]) rfl rfl
  case record t =>
    obtain ⟨task, ht, hpc, rfl⟩ := h
    refine mainInv_task hi ht (by simp [hpc]) ?_ ?_ <;> split <;> rfl
  case release t =>
    split at h <;> try simp at h
    rename_i task ht
    obtain ⟨⟨hpc, hwg, hsem⟩, rfl⟩ := h
    exact mainInv_task hi ht (by simp [hpc]) rfl rfl

/-- Every state of a run satisfies the three invariants. -/
theorem exec_inv {d : Options} {limit : Int} :
    ∀ (sched : List Action) (s s' : State), exec d limit s sched = some s' →
      CountInv limit s ∧ DataInv s ∧ MainInv s →
      CountInv limit s' ∧ DataInv s' ∧ MainInv s'
  | [], s, s', h, hi => by
    simp [exec] at h
    subst h
    exact hi
  | a :: rest, s, s', h, hi => by
    simp only [exec] at h
    cases hs : step d limit s a with
    | none => simp [hs] at h
    | some s1 =>
      simp only [hs] at h
      exact exec_inv rest s1 s' h
        ⟨countInv_step hs hi.1, dataInv_step hs hi.2.1, mainInv_step hs hi.1 hi.2.2⟩

theorem reachable_inv {d : Options} {limit : Int} {s : State} (h : Reachable d limit s) :
    CountInv limit s ∧ DataInv s ∧ MainInv s := by
  obtain ⟨ctx, sched, hs⟩ := h
  exact exec_inv sched _ _ hs ⟨countInv_init limit ctx, dataInv_init ctx, mainInv_init ctx⟩

theorem canceledEnd_reachable : Reachable ⟨8⟩ 2 canceledEnd :=
  ⟨none, canceledRun, by decide⟩

theorem deadlineEnd_reachable : Reachable ⟨8⟩ 2 deadlineEnd :=
  ⟨none, deadlineRun, by decide⟩

theorem blockedEnd_reachable (limit : Int) (h : limit = 1 ∨ limit = 2) :
    Reachable ⟨8⟩ limit blockedEnd := by
  rcases h with rfl | rfl
  · exact ⟨none, blockedRun, by decide⟩
  · exact ⟨none, blockedRun, by decide⟩

theorem successEnd_reachable : Reachable ⟨8⟩ 2 successEnd :=
  ⟨none, successRun, by decide⟩

theorem exec_append (d : Options) (limit : Int) :
    ∀ (sched1 sched2 : List Action) (s s1 : State), exec d limit s sched1 = some s1 →
      exec d limit s (sched1 ++ sched2) = exec d limit s1 sched2
  | [], sched2, s, s1, h => by
    simp [exec] at h
    subst h
    rfl
  | a :: rest, sched2, s, s1, h => by
    simp only [exec, List.cons_append] at h ⊢
    cases hs : step d limit s a with
    | none => simp [hs] at h
    | some s2 =>
      simp only [hs] at h ⊢
      exact exec_append d limit rest sched2 s2 s1 h

theorem reachable_exec {d : Options} {limit : Int} {s s' : State} (h : Reachable d limit s)
    (sched : List Action) (he : exec d limit s sched = some s') : Reachable d limit s' := by
  obtain ⟨ctx, sched0, h0⟩ := h
  exact ⟨ctx, sched0 ++ sched, by rw [exec_append d limit sched0 sched _ s h0, he]⟩

/-! ## Progress of goroutines and termination of `Download` -/

theorem sum_set_add (f : Task → Nat) (y : Task) :
    ∀ (l : List Task) (t : Nat) (x : Task), l[t]? = some x →
      ((l.set t y).map f).sum + f x = (l.map f).sum + f y
  | [], t, x, h => by simp at h
  | a :: l, 0, x, h => by
    rw [List.getElem?_cons_zero] at h
    cases h
    simp only [List.set_cons_zero, List.map_cons, List.sum_cons]
    omega
  | a :: l, t + 1, x, h => by
    rw [List.getElem?_cons_succ] at h
    have ih := sum_set_add f y l t x h
    simp only [List.set_cons_succ, List.map_cons, List.sum_cons]
    omega

theorem rank_le_six (pc : TaskPc) : pc.rank ≤ 6 := by
  cases pc <;> simp [TaskPc.rank]

theorem remaining_set {s s' : State} {t : Nat} {task task' : Task}
    (ht : s.tasks[t]? = some task) (h1 : s'.tasks = s.tasks.set t task')
    (hlt : task.pc.rank < task'.pc.rank) : remaining s' < remaining s := by
  have key := sum_set_add (fun task => 6 - task.pc.rank) task' _ _ _ ht
  have h6 := rank_le_six task'.pc
  simp only [remaining, h1]
  simp only at key
  omega

theorem exists_active_task {s : State} (h : active s ≠ 0) :
    ∃ (t : Nat) (task : Task), s.tasks[t]? = some task ∧ task.pc ≠ TaskPc.finished := by
  have hpos : 0 < s.tasks.countP Task.isActive := Nat.pos_of_ne_zero h
  obtain ⟨task, hm, hp⟩ := List.countP_pos_iff.mp hpos
  obtain ⟨t, ht⟩ := List.mem_iff_getElem?.mp hm
  exact ⟨t, task, ht, by simpa [Task.isActive] using hp⟩

theorem active_pos_of_task {s : State} {t : Nat} {task : Task}
    (ht : s.tasks[t]? = some task) (hp : task.pc ≠ TaskPc.finished) : 0 < active s := by
  unfold active
  rw [List.countP_pos_iff]
  exact ⟨task, List.mem_iff_getElem?.mpr ⟨t, ht⟩, by simpa [Task.isActive] using hp⟩

/-- An unfinished goroutine can always take its next step: the step replaces
only that goroutine, moves it forward, not past the closure's return when it
was before it, and leaves the main goroutine alone. -/
theorem task_step_exists (d : Options) (limit : Int) (s : State) (hc : CountInv limit s)
    (t : Nat) (task : Task) (ht : s.tasks[t]? = some task)
    (hr : task.pc ≠ TaskPc.finished) :
    ∃ (a : Action) (s' : State) (task' : Task), step d limit s a = some s' ∧
      s'.tasks = s.tasks.set t task' ∧ task'.elem = task.elem ∧
      task.pc.rank < task'.pc.rank ∧ (task.pc.rank < 4 → task'.pc.rank ≤ 4) ∧
      s'.main = s.main ∧ s'.iterErr = s.iterErr := by
  cases hpc : task.pc with
  | spawned =>
    refine ⟨Action.onAdd t,
      { setTask s t { task with pc := TaskPc.added } with
        log := s.log ++ [Event.onAdd t task.elem] },
      { task with pc := TaskPc.added }, ?_, rfl, rfl, ?_, ?_, rfl, rfl⟩
    · simp [step, stepTask, ht, hpc]
    · simp [TaskPc.rank]
    · simp [TaskPc.rank]
  | added =>
    cases hx : s.ctxErr with
    | some e =>
      refine ⟨Action.enter t,
        setTask s t { task with pc := TaskPc.returned, err := download (some e) none },
        { task with pc := TaskPc.returned, err := download (some e) none },
        ?_, rfl, rfl, ?_, ?_, rfl, rfl⟩
      · simp [step, stepTask, ht, hpc, hx]
      · simp [TaskPc.rank]
      · simp [TaskPc.rank]
    | none =>
      refine ⟨Action.enter t,
        setTask s t { task with pc := TaskPc.transferring,
                                threads := some (bestThreads task.elem.size d.Threads) },
        { task with pc := TaskPc.transferring,
                    threads := some (bestThreads task.elem.size d.Threads) },
        ?_, rfl, rfl, ?_, ?_, rfl, rfl⟩
      · simp [step, stepTask, ht, hpc, hx]
      · simp [TaskPc.rank]
      · simp [TaskPc.rank]
  | transferring =>
    refine ⟨Action.transfer t none,
      setTask s t { task with pc := TaskPc.returned, err := download none none },
      { task with pc := TaskPc.returned, err := download none none },
      ?_, rfl, rfl, ?_, ?_, rfl, rfl⟩
    · simp [step, stepTask, ht, hpc]
    · simp [TaskPc.rank]
    · simp [TaskPc.rank]
  | returned =>
    refine ⟨Action.onDone t,
      { setTask s t { task with pc := TaskPc.exited, rerr := taskReturn task.err } with
        log := s.log ++ [Event.onDone t task.elem (taskReturn task.err)] },
      { task with pc := TaskPc.exited, rerr := taskReturn task.err },
      ?_, rfl, rfl, ?_, ?_, rfl, rfl⟩
    · simp [step, stepTask, ht, hpc]
    · simp [TaskPc.rank]
    · simp [TaskPc.rank]
  | exited =>
    have hex : ∃ s', step d limit s (Action.record t) = some s' ∧
        s'.tasks = s.tasks.set t { task with pc := TaskPc.recorded } ∧
        s'.main = s.main ∧ s'.iterErr = s.iterErr := by
      have h1 : task.rerr = none ∨ ∃ e, task.rerr = some e := by
        cases task.rerr with
        | none => exact Or.inl rfl
        | some e => exact Or.inr ⟨e, rfl⟩
      have h2 : s.gerr = none ∨ ∃ e, s.gerr = some e := by
        cases s.gerr with
        | none => exact Or.inl rfl
        | some e => exact Or.inr ⟨e, rfl⟩
      rcases h1 with h1 | ⟨e, h1⟩
      · exact ⟨setTask s t { task with pc := TaskPc.recorded },
          by simp [step, stepTask, ht, hpc, h1], rfl, rfl, rfl⟩
      · rcases h2 with h2 | ⟨e', h2⟩
        · exact ⟨{ setTask s t { task with pc := TaskPc.recorded } with
                   gerr := some e, ctxErr := cancel s.ctxErr },
            by simp [step, stepTask, ht, hpc, h1, h2], rfl, rfl, rfl⟩
        · exact ⟨setTask s t { task with pc := TaskPc.recorded },
            by simp [step, stepTask, ht, hpc, h1, h2], rfl, rfl, rfl⟩
    obtain ⟨s', hs, h1, h2, h3⟩ := hex
    refine ⟨Action.record t, s', { task with pc := TaskPc.recorded },
      hs, h1, rfl, ?_, ?_, h2, h3⟩
    · simp [TaskPc.rank]
    · simp [TaskPc.rank]
  | recorded =>
    have hact := active_pos_of_task ht hr
    have hwg : 0 < s.wg := by rw [hc.wg_eq]; exact hact
    have hsem : limit < 0 ∨ 0 < s.sem := by
      by_cases hl : limit < 0
      · exact Or.inl hl
      · right
        rw [hc.sem_eq (not_lt.mp hl)]
        exact hact
    refine ⟨Action.release t,
      { setTask s t { task with pc := TaskPc.finished } with
        sem := if limit < 0 then s.sem else s.sem - 1, wg := s.wg - 1 },
      { task with pc := TaskPc.finished }, ?_, rfl, rfl, ?_, ?_, rfl, rfl⟩
    · simp [step, ht, hpc, hwg, hsem]
    · simp [TaskPc.rank]
    · simp [TaskPc.rank]
  | finished => exact absurd hpc hr

/-- From any state of a run, a goroutine whose closure has not returned has
a schedule that takes it to the return of its closure. -/
theorem task_can_exit (d : Options) (limit : Int) :
    ∀ (n : Nat) (s : State), Reachable d limit s → ∀ (t : Nat) (task : Task),
      s.tasks[t]? = some task → 4 - task.pc.rank ≤ n →
      ∃ (sched : List Action) (s' : State) (task' : Task), exec d limit s sched = some s' ∧
        s'.tasks[t]? = some task' ∧ task'.elem = task.elem ∧ 4 ≤ task'.pc.rank
  | 0, s, _, t, task, ht, hn => ⟨[], s, task, rfl, ht, rfl, by omega⟩
  | n + 1, s, hs, t, task, ht, hn => by
    by_cases hr : task.pc.rank < 4
    · have hne : task.pc ≠ TaskPc.finished := by
        intro hp
        simp [hp, TaskPc.rank] at hr
      obtain ⟨a, s1, task1, hstep, ht1, he1, hlt, _, _, _⟩ :=
        task_step_exists d limit s (reachable_inv hs).1 t task ht hne
      have hs1 : Reachable d limit s1 := reachable_exec hs [a]
        (by simp [exec, hstep])
      have ht1' : s1.tasks[t]? = some task1 := by
        rw [ht1, getElem?_set_task ht, if_pos rfl]
      obtain ⟨sched, s', task', he, ht', hel, hr'⟩ :=
        task_can_exit d limit n s1 hs1 t task1 ht1' (by omega)
      refine ⟨a :: sched, s', task', ?_, ht', hel.trans he1, hr'⟩
      simp only [exec, hstep]
      exact he
    · exact ⟨[], s, task, rfl, ht, rfl, by omega⟩

/-- From any state of a run there is a schedule after which every launched
goroutine has finished, the main goroutine not having moved. -/
theorem tasks_can_finish (d : Options) (limit : Int) :
    ∀ (n : Nat) (s : State), Reachable d limit s → remaining s ≤ n →
      ∃ (sched : List Action) (s' : State), exec d limit s sched = some s' ∧
        s'.main = s.main ∧ s'.iterErr = s.iterErr ∧ active s' = 0
  | 0, s, hs, hn => by
    by_cases ha : active s = 0
    · exact ⟨[], s, rfl, rfl, rfl, ha⟩
    · obtain ⟨t, task, ht, hp⟩ := exists_active_task ha
      obtain ⟨a, s1, task1, _, ht1, _, hlt, _, _, _⟩ :=
        task_step_exists d limit s (reachable_inv hs).1 t task ht hp
      have := remaining_set ht ht1 hlt
      omega
  | n + 1, s, hs, hn => by
    by_cases ha : active s = 0
    · exact ⟨[], s, rfl, rfl, rfl, ha⟩
    · obtain ⟨t, task, ht, hp⟩ := exists_active_task ha
      obtain ⟨a, s1, task1, hstep, ht1, _, hlt, _, hm1, hi1⟩ :=
        task_step_exists d limit s (reachable_inv hs).1 t task ht hp
      have hrem := remaining_set ht ht1 hlt
      have hs1 : Reachable d limit s1 := reachable_exec hs [a]
        (by simp [exec, hstep])
      obtain ⟨sched, s', he, hm, hi, hz⟩ := tasks_can_finish d limit n s1 hs1 (by omega)
      refine ⟨a :: sched, s', ?_, hm.trans hm1, hi.trans hi1, hz⟩
      simp only [exec, hstep]
      exact he

/-- Once no goroutine is left, `Download` can leave its loop and return from
`wg.Wait()`. -/
theorem return_from_next (d : Options) (limit : Int) (s : State) (hs : Reachable d limit s)
    (hm : s.main = MainPc.next) (ha : active s = 0) :
    ∃ (sched : List Action) (s' : State) (r : Option Err), exec d limit s sched = some s' ∧
      s'.main = MainPc.done r ∧ s'.iterErr = s.iterErr := by
  have hwg : s.wg = 0 := by rw [(reachable_inv hs).1.wg_eq]; exact ha
  exact ⟨[Action.iterEnd, Action.iterErr none, Action.wait],
    { s with main := MainPc.done s.gerr, ctxErr := cancel s.ctxErr }, s.gerr,
    by simp [exec, step, hm, hwg], rfl, rfl⟩

/-- Termination: with a limit other than 0, every state of a run has a
schedule after which `Download` has returned, `Iter.Err()` not having
changed its answer. -/
theorem download_can_return (d : Options) (limit : Int) (s : State)
    (hs : Reachable d limit s) (hl : limit ≠ 0) :
    ∃ (sched : List Action) (s' : State) (r : Option Err), exec d limit s sched = some s' ∧
      s'.main = MainPc.done r ∧ s'.iterErr = s.iterErr := by
  obtain ⟨sched1, s1, he1, hm1, hi1, ha1⟩ :=
    tasks_can_finish d limit (remaining s) s hs (le_refl _)
  have hs1 : Reachable d limit s1 := reachable_exec hs sched1 he1
  have hc1 := (reachable_inv hs1).1
  have hwg : s1.wg = 0 := by rw [hc1.wg_eq]; exact ha1
  cases hm : s1.main with
  | done r =>
    exact ⟨sched1, s1, r, he1, hm, hi1⟩
  | wait =>
    refine ⟨sched1 ++ [Action.wait],
      { s1 with main := MainPc.done s1.gerr, ctxErr := cancel s1.ctxErr }, s1.gerr,
      ?_, rfl, hi1⟩
    rw [exec_append d limit sched1 _ s s1 he1]
    simp [exec, step, hm, hwg]
  | checkErr =>
    refine ⟨sched1 ++ [Action.iterErr none, Action.wait],
      { s1 with main := MainPc.done s1.gerr, ctxErr := cancel s1.ctxErr }, s1.gerr,
      ?_, rfl, hi1⟩
    rw [exec_append d limit sched1 _ s s1 he1]
    simp [exec, step, hm, hwg]
  | next =>
    obtain ⟨sched2, s2, r, he2, hm2, hi2⟩ := return_from_next d limit s1 hs1 hm ha1
    refine ⟨sched1 ++ sched2, s2, r, ?_, hm2, hi2.trans hi1⟩
    rw [exec_append d limit sched1 _ s s1 he1, he2]
  | launch e =>
    have hgo : (step d limit s1 Action.go).isSome = true := by
      have hsem : limit < 0 ∨ (s1.sem : Int) < limit := by
        by_cases h0 : limit < 0
        · exact Or.inl h0
        · right
          have := hc1.sem_eq (not_lt.mp h0)
          rw [this, ha1]
          simp only [Nat.cast_zero]
          omega
      simp only [step, hm]
      rcases hsem with h0 | h0
      · simp [h0]
      · by_cases h1 : limit < 0
        · simp [h1]
        · simp [h1, h0]
    obtain ⟨s2, hstep⟩ := Option.isSome_iff_exists.mp hgo
    have hm2 : s2.main = MainPc.next ∧ s2.iterErr = s1.iterErr := by
      simp only [step, hm] at hstep
      split_ifs at hstep <;> simp at hstep <;> subst hstep <;> exact ⟨rfl, rfl⟩
    have hs2 : Reachable d limit s2 := reachable_exec hs1 [Action.go]
        (by simp [exec, hstep])
    obtain ⟨sched3, s3, he3, hm3, hi3, ha3⟩ :=
      tasks_can_finish d limit (remaining s2) s2 hs2 (le_refl _)
    have hs3 : Reachable d limit s3 := reachable_exec hs2 sched3 he3
    obtain ⟨sched4, s4, r, he4, hm4, hi4⟩ :=
      return_from_next d limit s3 hs3 (hm3.trans hm2.1) ha3
    refine ⟨sched1 ++ (Action.go :: (sched3 ++ sched4)), s4, r, ?_, hm4, ?_⟩
    · rw [exec_append d limit sched1 _ s s1 he1]
      simp only [exec, hstep]
      rw [exec_append d limit sched3 _ s2 s3 he3, he4]
    · rw [hi4, hi3, hm2.2, hi1]

/-! ## Error classification -/

theorem taskReturn_eq_some {err : Option Err} {e : Err} :
    taskReturn err = some e ↔
      ∃ x, err = some x ∧ errorsIs x contextCanceled = true ∧
        e = errorsWrap x "download" := by
  unfold taskReturn
  cases err with
  | none => simp
  | some x =>
    by_cases hx : errorsIs x contextCanceled = true
    · simp only [hx, if_true, Option.some.injEq, exists_eq_left', true_and]
      exact eq_comm
    · simp [hx]

theorem taskReturn_ne_none {err : Option Err} :
    taskReturn err ≠ none ↔ ∃ x, err = some x ∧ errorsIs x contextCanceled = true := by
  unfold taskReturn
  cases err with
  | none => simp
  | some x =>
    by_cases hx : errorsIs x contextCanceled = true
    · simp [hx]
    · simp [hx]

/-- What `Download` returns from `wg.Wait()`: an error only if some item's
`download` returned a cancellation, and then that error wrapped with
"download"; and an error whenever some item's `download` returned one. -/
theorem wait_result {d : Options} {limit : Int} {s : State} {r : Option Err}
    (h : Reachable d limit s) (hm : s.main = MainPc.done r) (hi : s.iterErr = none) :
    (∀ e, r = some e → ∃ (t : Nat) (task : Task) (err : Err), s.tasks[t]? = some task ∧
        task.err = some err ∧ errorsIs err contextCanceled = true ∧
        e = errorsWrap err "download") ∧
    (∀ (t : Nat) (task : Task) (err : Err), s.tasks[t]? = some task → task.err = some err →
        errorsIs err contextCanceled = true → r ≠ none) := by
  obtain ⟨_, hd, hmi⟩ := reachable_inv h
  obtain ⟨hr, ha⟩ := hmi.waited r hm hi
  constructor
  · intro e he
    rw [hr] at he
    obtain ⟨t, task, ht, hrank, hre⟩ := hd.gerr_src e he
    rw [hd.rerr_eq t task ht hrank] at hre
    obtain ⟨x, hx, hc, hw⟩ := taskReturn_eq_some.mp hre
    exact ⟨t, task, x, ht, hx, hc, hw⟩
  · intro t task err ht he hc
    have hpc := finished_of_active_eq_zero ha ht
    have hrank : 5 ≤ task.pc.rank := by simp [hpc, TaskPc.rank]
    have hre := hd.rerr_eq t task ht (by omega)
    rw [hr]
    apply hd.gerr_set t task ht hrank
    rw [hre]
    exact taskReturn_ne_none.mpr ⟨err, he, hc⟩

/-- C3 (the code at the failing input): when the only item's transfer fails
with a plain I/O fault, `download` returns the fault wrapped with "download",
which is not a cancellation, and the progress sink receives `OnDone` with a
nil error for that item. -/
theorem onDone_nil_on_transfer_fault :
    ∃ s, exec ⟨8⟩ 2 (init none) ioFaultRun = some s ∧
      s.tasks.map Task.err = [some (Err.wrap "download" (Err.other 1))] ∧
      errorsIs (Err.wrap "download" (Err.other 1)) contextCanceled = false ∧
      s.log = [Event.onAdd 0 item0, Event.onDone 0 item0 none] :=
  ⟨_, rfl, by decide, by decide, by decide⟩

/-- C4: in every state of a run, if `Download` has returned and `Iter.Err()`
was nil, the returned error is non-nil if and only if some item's `download`
returned an error that is or wraps `context.Canceled`; the per-item task
returns a non-nil error exactly for such errors; and `Download` does return:
with a limit other than 0 every state has a schedule to a returned state in
which `Iter.Err()` has answered as before. -/
theorem download_error_iff_canceled (d : Options) (limit : Int) (s : State)
    (h : Reachable d limit s) :
    (∀ r : Option Err, s.main = MainPc.done r → s.iterErr = none →
      (r ≠ none ↔ ∃ (t : Nat) (task : Task) (err : Err), s.tasks[t]? = some task ∧
        task.err = some err ∧ errorsIs err contextCanceled = true)) ∧
    (∀ err : Option Err,
      taskReturn err ≠ none ↔ ∃ e, err = some e ∧ errorsIs e contextCanceled = true) ∧
    (limit ≠ 0 → ∃ (sched : List Action) (s' : State) (r : Option Err),
      exec d limit s sched = some s' ∧ s'.main = MainPc.done r ∧ s'.iterErr = s.iterErr) := by
  refine ⟨?_, fun err => taskReturn_ne_none, download_can_return d limit s h⟩
  intro r hm hi
  obtain ⟨h1, h2⟩ := wait_result h hm hi
  constructor
  · intro hr
    cases hre : r with
    | none => exact absurd hre hr
    | some e =>
      obtain ⟨t, task, err, ht, he, hc, _⟩ := h1 e hre
      exact ⟨t, task, err, ht, he, hc⟩
  · rintro ⟨t, task, err, ht, he, hc⟩
    exact h2 t task err ht he hc

/-- Witness for C4: in `canceledRun` the first transfer fails with a plain
fault, the second with `context.Canceled`, and `Download` returns non-nil. -/
theorem download_error_iff_canceled_witness :
    Reachable ⟨8⟩ 2 canceledEnd ∧
    canceledEnd.main =
      MainPc.done (some (Err.wrap "download" (Err.wrap "download" Err.canceled))) ∧
    canceledEnd.iterErr = none ∧
    (some (Err.wrap "download" (Err.wrap "download" Err.canceled)) ≠ none ↔
      ∃ (t : Nat) (task : Task) (err : Err), canceledEnd.tasks[t]? = some task ∧
        task.err = some err ∧ errorsIs err contextCanceled = true) :=
  ⟨canceledEnd_reachable, rfl, rfl,
    (download_error_iff_canceled ⟨8⟩ 2 canceledEnd canceledEnd_reachable).1 _ rfl rfl⟩

/-- C5 (as stated, refuted): `context.DeadlineExceeded` is a deadline error,
yet the task returns nil for it, and in `deadlineRun`, where the only item's
`download` returns it, `Download` returns nil. -/
theorem deadline_not_fatal :
    errorsIs contextDeadlineExceeded contextDeadlineExceeded = true ∧
    taskReturn (some contextDeadlineExceeded) = none ∧
    ∃ s, exec ⟨8⟩ 2 (init none) deadlineRun = some s ∧
      s.tasks.map Task.err = [some contextDeadlineExceeded] ∧
      s.tasks.map Task.rerr = [none] ∧
      s.iterErr = none ∧ s.main = MainPc.done none :=
  ⟨by decide, by decide, _, rfl, by decide, by decide, by decide, by decide⟩

/-- C5 (amended): classification is by `errors.Is(err, context.Canceled)`
alone. An error for which it holds is returned by the task, wrapped with
"download"; an error for which it fails makes the task return nil, and so do
`context.DeadlineExceeded` itself and its wrapping by `download`; a
deadline error is fatal only if it also matches `context.Canceled`, as a
joined error can; and a batch in which `errors.Is(err, context.Canceled)`
fails for every error returned by `download`, and whose iterator ends without
error, makes `Download` return nil. -/
theorem deadline_classified_as_transfer_error (err : Err) :
    (errorsIs err contextCanceled = true →
      taskReturn (some err) = some (errorsWrap err "download")) ∧
    (errorsIs err contextCanceled = false → taskReturn (some err) = none) ∧
    (errorsIs contextDeadlineExceeded contextCanceled = false ∧
      errorsIs (errorsWrap contextDeadlineExceeded "download") contextCanceled = false) ∧
    (errorsIs (Err.join contextDeadlineExceeded contextCanceled)
        contextDeadlineExceeded = true ∧
      taskReturn (some (Err.join contextDeadlineExceeded contextCanceled)) ≠ none) ∧
    (∀ (d : Options) (limit : Int) (s : State) (r : Option Err), Reachable d limit s →
      s.main = MainPc.done r → s.iterErr = none →
      (∀ (t : Nat) (task : Task) (e : Err), s.tasks[t]? = some task → task.err = some e →
        errorsIs e contextCanceled = false) → r = none) := by
  refine ⟨?_, ?_, ⟨by decide, by decide⟩, ⟨by decide, by decide⟩, ?_⟩
  · intro h
    simp [taskReturn, h]
  · intro h
    simp [taskReturn, h]
  · intro d limit s r h hm hi hall
    cases hr : r with
    | none => rfl
    | some e =>
      obtain ⟨t, task, x, ht, hx, hc, _⟩ := (wait_result h hm hi).1 e hr
      rw [hall t task x ht hx] at hc
      cases hc

/-- Witness for C5 (amended): `context.Canceled` and `context.DeadlineExceeded`
themselves, and the end of `deadlineRun`. -/
theorem deadline_classified_as_transfer_error_witness :
    (errorsIs contextCanceled contextCanceled = true ∧
      taskReturn (some contextCanceled) = some (errorsWrap contextCanceled "download")) ∧
    (errorsIs contextDeadlineExceeded contextCanceled = false ∧
      taskReturn (some contextDeadlineExceeded) = none) ∧
    (Reachable ⟨8⟩ 2 deadlineEnd ∧ deadlineEnd.iterErr = none ∧
      (∀ (t : Nat) (task : Task) (e : Err), deadlineEnd.tasks[t]? = some task →
        task.err = some e → errorsIs e contextCanceled = false) ∧
      (∀ r, deadlineEnd.main = MainPc.done r → r = none)) := by
  have htasks : deadlineEnd.tasks =
      [⟨item0, TaskPc.finished, none, some Err.deadlineExceeded, none⟩] := rfl
  have hall : ∀ (t : Nat) (task : Task) (e : Err), deadlineEnd.tasks[t]? = some task →
      task.err = some e → errorsIs e contextCanceled = false := by
    intro t task e ht he
    rw [htasks] at ht
    cases t with
    | zero =>
      rw [List.getElem?_cons_zero] at ht
      cases ht
      cases he
      decide
    | succ n =>
      rw [List.getElem?_cons_succ, List.getElem?_nil] at ht
      cases ht
  have key := deadline_classified_as_transfer_error
  exact ⟨⟨by decide, (key contextCanceled).1 (by decide)⟩,
    ⟨by decide, (key contextDeadlineExceeded).2.1 (by decide)⟩,
    ⟨deadlineEnd_reachable, rfl, hall,
      fun r hr =>
        (key contextCanceled).2.2.2.2 ⟨8⟩ 2 deadlineEnd r deadlineEnd_reachable hr rfl
          hall⟩⟩

/-! ## Enumeration errors -/

/-- C6 (the code at the failing input): in `iterFaultRun` the iterator ends
with an error while the only item's transfer is in flight; `Download` has
returned that error wrapped with "iter", yet the goroutine is unfinished, the
counter of `g.wg` is 1, and the progress sink has not received `OnDone`. -/
theorem download_returns_with_task_in_flight :
    ∃ s, exec ⟨8⟩ 2 (init none) iterFaultRun = some s ∧
      s.main = MainPc.done (some (Err.wrap "iter" (Err.other 7))) ∧
      s.tasks.map Task.pc = [TaskPc.transferring] ∧
      active s = 1 ∧ s.wg = 1 ∧
      s.log = [Event.onAdd 0 item0] :=
  ⟨_, rfl, by decide, by decide, by decide, by decide, by decide⟩

/-! ## The concurrency limit -/

/-- C9 (as stated, refuted): with `limit = -1` two goroutines are unfinished
at once, which is more than the limit argument. -/
theorem active_exceeds_negative_limit :
    ∃ s, exec ⟨8⟩ (-1) (init none) unlimitedRun = some s ∧
      active s = 2 ∧ ¬ ((active s : Int) ≤ -1) :=
  ⟨_, rfl, by decide, by decide⟩

/-- C9 (amended): with `limit ≥ 0`, the number of unfinished goroutines never
exceeds `limit`, and `wg.Go` blocks while it equals `limit`; `wg.Go` proceeds
whenever fewer than `limit` are unfinished, and always when the limit is
negative (no cap). -/
theorem active_le_limit (d : Options) (limit : Int) (s : State) (h : Reachable d limit s) :
    (0 ≤ limit → (active s : Int) ≤ limit) ∧
    (0 ≤ limit → (active s : Int) = limit → step d limit s Action.go = none) ∧
    (∀ e, s.main = MainPc.launch e → limit < 0 ∨ (active s : Int) < limit →
      (step d limit s Action.go).isSome = true) := by
  obtain ⟨hc, _, _⟩ := reachable_inv h
  refine ⟨?_, ?_, ?_⟩
  · intro hl
    rw [← hc.sem_eq hl]
    exact hc.sem_le hl
  · intro hl ha
    rw [← hc.sem_eq hl] at ha
    have h1 : ¬ limit < 0 := not_lt.mpr hl
    have h2 : ¬ (s.sem : Int) < limit := by omega
    simp only [step]
    split
    · simp [h1, h2]
    · rfl
  · intro e hm hl
    simp only [step, hm]
    by_cases h1 : limit < 0
    · simp [h1]
    · have h2 : (s.sem : Int) < limit := by
        rcases hl with hl | hl
        · exact absurd hl h1
        · rw [hc.sem_eq (not_lt.mp h1)]
          exact hl
      simp [h1, h2]

/-- Witness for C9 (amended): at the end of `blockedRun` one goroutine is
unfinished and a second item is about to be launched; with `limit = 1` the
call of `wg.Go` is blocked, with `limit = 2` it proceeds. -/
theorem active_le_limit_witness :
    (Reachable ⟨8⟩ 1 blockedEnd ∧ (0 : Int) ≤ 1 ∧ (active blockedEnd : Int) = 1 ∧
      (active blockedEnd : Int) ≤ 1 ∧ step ⟨8⟩ 1 blockedEnd Action.go = none) ∧
    (Reachable ⟨8⟩ 2 blockedEnd ∧ blockedEnd.main = MainPc.launch item1 ∧
      (active blockedEnd : Int) < 2 ∧ (step ⟨8⟩ 2 blockedEnd Action.go).isSome = true) :=
  ⟨⟨blockedEnd_reachable 1 (Or.inl rfl), by decide, by decide,
      (active_le_limit ⟨8⟩ 1 blockedEnd (blockedEnd_reachable 1 (Or.inl rfl))).1 (by decide),
      (active_le_limit ⟨8⟩ 1 blockedEnd (blockedEnd_reachable 1 (Or.inl rfl))).2.1
        (by decide) (by decide)⟩,
    ⟨blockedEnd_reachable 2 (Or.inr rfl), rfl, by decide,
      (active_le_limit ⟨8⟩ 2 blockedEnd (blockedEnd_reachable 2 (Or.inr rfl))).2.2 item1 rfl
        (Or.inr (by decide))⟩⟩

/-! ## Progress notifications -/

/-- C7 (as stated, refuted): in `iterFaultRun` `Download` has returned, one
item has been dequeued and launched and has called `OnAdd`, but `OnDone` has
not been called: at the return the number of `OnDone` calls differs from the
number of `OnAdd` calls and of dequeued items. -/
theorem progress_counts_differ_at_return :
    ∃ s, exec ⟨8⟩ 2 (init none) iterFaultRun = some s ∧
      s.main = MainPc.done (some (Err.wrap "iter" (Err.other 7))) ∧
      s.dequeued = 1 ∧ countAdd s.log = 1 ∧ countDone s.log = 0 ∧
      ¬ (countAdd s.log = countDone s.log ∧ countDone s.log = s.dequeued) :=
  ⟨_, rfl, by decide, by decide, by decide, by decide, by decide⟩

/-- C7 (amended): in every state of a run, each launched goroutine has made
exactly the progress calls of its program point: none before `OnAdd`, then
one `OnAdd`, and once its closure has returned one `OnAdd` followed by one
`OnDone` carrying the closure's result, whatever `download` returned (nil, a
transfer error, a cancellation mid-flight, or the context error of the early
exit); no other index has any call; every goroutine can run to the return of
its closure, where its calls are that pair; the number of `OnDone` calls never
exceeds the number of `OnAdd` calls, nor the latter the number of dequeued
items; and when `Download` has returned and `Iter.Err()` was nil, the number
of `OnAdd` calls, the number of `OnDone` calls and the number of dequeued
items are equal. -/
theorem progress_calls_paired (d : Options) (limit : Int) (s : State)
    (h : Reachable d limit s) :
    (∀ t : Nat, s.tasks[t]? = none → eventsOf s.log t = []) ∧
    (∀ (t : Nat) (task : Task), s.tasks[t]? = some task →
      (task.pc = TaskPc.spawned → eventsOf s.log t = []) ∧
      (task.pc ≠ TaskPc.spawned → task.pc.rank < 4 →
        eventsOf s.log t = [Event.onAdd t task.elem]) ∧
      (4 ≤ task.pc.rank →
        eventsOf s.log t =
          [Event.onAdd t task.elem, Event.onDone t task.elem (taskReturn task.err)]) ∧
      (∃ (sched : List Action) (s' : State) (task' : Task),
        exec d limit s sched = some s' ∧ s'.tasks[t]? = some task' ∧
        eventsOf s'.log t =
          [Event.onAdd t task.elem, Event.onDone t task.elem (taskReturn task'.err)])) ∧
    countDone s.log ≤ countAdd s.log ∧ countAdd s.log ≤ s.dequeued ∧
    (∀ r : Option Err, s.main = MainPc.done r → s.iterErr = none →
      countAdd s.log = s.dequeued ∧ countDone s.log = s.dequeued) := by
  obtain ⟨hc, hd, hmi⟩ := reachable_inv h
  have hexit : ∀ (s : State), Reachable d limit s → ∀ (t : Nat) (task : Task),
      s.tasks[t]? = some task → 4 ≤ task.pc.rank →
      eventsOf s.log t =
        [Event.onAdd t task.elem, Event.onDone t task.elem (taskReturn task.err)] := by
    intro s hs t task ht hr
    obtain ⟨_, hd, _⟩ := reachable_inv hs
    have hne : task.pc ≠ TaskPc.spawned := by
      intro hp
      simp [hp, TaskPc.rank] at hr
    have hnl : ¬ task.pc.rank < 4 := by omega
    rw [hd.events t, ht, ← hd.rerr_eq t task ht hr]
    simp [expectedEvents, hne, hnl]
  have hsub : ∀ task : Task, task.hasExited = true → task.wasAdded = true := by
    intro task hx
    simp only [Task.hasExited, Task.wasAdded, decide_eq_true_eq] at hx ⊢
    intro hp
    simp [hp, TaskPc.rank] at hx
  have hle1 : s.tasks.countP Task.hasExited ≤ s.tasks.countP Task.wasAdded :=
    List.countP_mono_left fun task _ hx => hsub task hx
  have hle2 : s.tasks.countP Task.wasAdded ≤ s.tasks.length := List.countP_le_length _
  have hdeq := hc.deq
  refine ⟨?_, ?_, ?_, ?_, ?_⟩
  · intro t ht
    rw [hd.events t, ht]
    rfl
  · intro t task ht
    refine ⟨?_, ?_, hexit s h t task ht, ?_⟩
    · intro hp
      rw [hd.events t, ht]
      simp [expectedEvents, hp]
    · intro hp hr
      rw [hd.events t, ht]
      simp [expectedEvents, hp, hr]
    · obtain ⟨sched, s', task', he, ht', hel, hr'⟩ :=
        task_can_exit d limit (4 - task.pc.rank) s h t task ht (le_refl _)
      refine ⟨sched, s', task', he, ht', ?_⟩
      rw [hexit s' (reachable_exec h sched he) t task' ht' hr', hel]
  · rw [hc.nDone, hc.nAdd]
    exact hle1
  · rw [hc.nAdd]
    omega
  · intro r hm hi
    have hzero := (hmi.waited r hm hi).2
    have hfull : s.tasks.countP Task.hasExited = s.tasks.length := by
      rw [List.countP_eq_length]
      intro task hmem
      obtain ⟨t, ht⟩ := List.mem_iff_getElem?.mp hmem
      have hpc := finished_of_active_eq_zero hzero ht
      simp [Task.hasExited, hpc, TaskPc.rank]
    have hhold : s.main.holding = 0 := by
      rw [hm]
      rfl
    rw [hc.nDone, hc.nAdd]
    omega

/-- Witness for C7 (amended): at the end of `successRun` `Download` has
returned from `wg.Wait()` with `Iter.Err()` nil; goroutine 1 has made one
`OnAdd` then one `OnDone`, and the progress sink has received three calls of
each kind for three dequeued items. -/
theorem progress_calls_paired_witness :
    Reachable ⟨8⟩ 2 successEnd ∧
    successEnd.main = MainPc.done none ∧ successEnd.iterErr = none ∧
    eventsOf successEnd.log 1 = [Event.onAdd 1 item1, Event.onDone 1 item1 (taskReturn none)] ∧
    countAdd successEnd.log = successEnd.dequeued ∧
    countDone successEnd.log = successEnd.dequeued := by
  have key := progress_calls_paired ⟨8⟩ 2 successEnd successEnd_reachable
  exact ⟨successEnd_reachable, rfl, rfl,
    (key.2.1 1 ⟨item1, TaskPc.finished, some 4, none, none⟩ rfl).2.2.1 (by decide),
    key.2.2.2.2 none rfl rfl⟩

end Downloader
